import Mathlib

/-!
Verification development for the gowool/i18n repository.

The runtime translation layer (`i18n.go`, kept here as `Fallback`, `SetFallback`
over an `Option Tag` state) is embedded from the source.  The extraction
pipeline's implementation file is not present in the source tree (only its
test suite `extractor_test.go` and its CLI callers are), so the pipeline is
modelled from the specification, with every concrete behaviour pinned by the
repository's own tests (position table, sanitization table, extraction
fixtures, writer contracts).
-/

/-! ## Character classes -/

/-- Whitespace characters recognized between tokens of a translation call. -/
def isWs (c : Char) : Bool :=
  c = ' ' ∨ c = '\x09' ∨ c = '\x0a' ∨ c = '\x0d'

/-- Characters allowed in the language-tag argument of a translation call:
anything that is not whitespace and not a double quote. -/
def isLangChar (c : Char) : Bool :=
  ¬ (isWs c = true) ∧ c ≠ '"'

/-- Characters kept by package-name sanitization: letters, digits, underscore. -/
def isPkgChar (c : Char) : Bool :=
  c.isAlpha ∨ c.isDigit ∨ c = '_'

/-! ## Position Resolver -/

/-- Number of newline bytes in a character buffer. -/
def countNewlines (l : List Char) : Nat := l.count '\x0a'

/-- Index of the last newline byte in a buffer, `-1` when there is none
(the form used by the position formula `col = offset - lastNewlineIndex`). -/
def lastNewlineIndex : List Char → Int
  | [] => -1
  | c :: rest =>
    let r := lastNewlineIndex rest
    if 0 ≤ r then r + 1 else if c = '\x0a' then 0 else -1

/-- Modelled from the spec: `positionFor` of the missing `extractor.go`.
Converts a byte offset in `content` into `"<path>:<line>:<col>"` with 1-based
line and column; line is one plus the number of newlines preceding the offset
and column is the offset minus the index of the last preceding newline.  An
offset outside the open interval `(0, length)` yields the unknown-position
sentinel `"<path>:?:?"`; the zero offset is in the sentinel range, as pinned
by the repository's `TestPositionFor` table. -/
def positionFor (content : List Char) (pos : Int) (relPath : String) : String :=
  if pos ≤ 0 ∨ (content.length : Int) ≤ pos then
    relPath ++ ":?:?"
  else
    let before := content.take pos.toNat
    relPath ++ ":" ++ toString (1 + countNewlines before) ++ ":" ++
      toString (pos - lastNewlineIndex before)

/-! ## Extension filter -/

/-- Lower-case every character of a string. -/
def lowerStr (s : String) : String := String.mk (s.data.map Char.toLower)

/-- Extension scan over the reversed path: collect characters until a dot
(returning the dot plus collected suffix) or a path separator (no extension). -/
def extFromRev : List Char → List Char → List Char
  | [], _ => []
  | c :: rest, acc =>
    if c = '/' then []
    else if c = '.' then '.' :: acc
    else extFromRev rest (c :: acc)

/-- File extension of a path, including the leading dot, taken from the final
path element; empty when the final element has no dot. -/
def filepathExt (p : String) : String := String.mk (extFromRev p.data.reverse [])

/-! ## Package-name sanitization -/

/-- Modelled from the spec: `sanitizePkgName` of the missing `extractor.go`.
Strips every character that is not a letter, digit or underscore; if the first
remaining character is a digit that single character is dropped; if the result
is empty the default package name `main` is used. -/
def sanitizePkgName (s : String) : String :=
  let stripped := s.data.filter isPkgChar
  let dropped :=
    match stripped with
    | c :: rest => if c.isDigit then rest else c :: rest
    | [] => []
  if dropped.isEmpty then "main" else String.mk dropped

/-! ## Go string quoting (stub emission) and its denotation -/

/-- Escape one character for a double-quoted Go string literal: backslash and
quote are backslash-escaped, tab and newline become their two-character escape
sequences, every other character is kept as is. -/
def escapeChar (c : Char) : List Char :=
  if c = '\\' then ['\\', '\\']
  else if c = '"' then ['\\', '"']
  else if c = '\x0a' then ['\\', 'n']
  else if c = '\x09' then ['\\', 't']
  else [c]

/-- Modelled from the spec: `strconvQuote` of the missing `extractor.go`.
Produces the double-quoted, escape-correct Go literal of a message text. -/
def strconvQuote (s : String) : String :=
  String.mk ('"' :: s.data.flatMap escapeChar ++ ['"'])

/-- Decode a single escape sequence character of a Go string literal. -/
def decodeEsc (c : Char) : Option Char :=
  if c = '\\' then some '\\'
  else if c = '"' then some '"'
  else if c = 'n' then some '\x0a'
  else if c = 't' then some '\x09'
  else none

/-- Interpreter for the body of a double-quoted literal (characters after the
opening quote).  The flag records that the previous character was a backslash.
Succeeds only when the closing quote is the final character. -/
def unquoteAux : Bool → List Char → Option (List Char)
  | _, [] => none
  | b, c :: rest =>
    if b then
      match decodeEsc c with
      | some d => (unquoteAux false rest).map (fun l => d :: l)
      | none => none
    else if c = '"' then (if rest.isEmpty then some [] else none)
    else if c = '\\' then unquoteAux true rest
    else (unquoteAux false rest).map (fun l => c :: l)

/-- String denoted by a double-quoted Go literal, `none` when malformed. -/
def unquoteGo (s : String) : Option String :=
  match s.data with
  | '"' :: rest => (unquoteAux false rest).map String.mk
  | _ => none

/-! ## Scanner: quoted literals inside templates -/

/-- Template-side escaping of a message text: each double quote becomes the
two-character sequence backslash-quote. -/
def escapeQuotes : List Char → List Char
  | [] => []
  | c :: rest =>
    if c = '"' then '\\' :: '"' :: escapeQuotes rest else c :: escapeQuotes rest

/-- Single left-to-right pass resolving backslash-quote pairs; the flag
records a pending backslash that has not yet been emitted. -/
def unescAux : Bool → List Char → List Char
  | b, [] => if b then ['\\'] else []
  | b, c :: rest =>
    if b then
      if c = '"' then '"' :: unescAux false rest
      else if c = '\\' then '\\' :: unescAux true rest
      else '\\' :: c :: unescAux false rest
    else if c = '\\' then unescAux true rest
    else c :: unescAux false rest

/-- Resolve the template escape sequences of a captured raw literal: each
backslash-quote pair becomes a literal quote character. -/
def unescapeQuotes (l : List Char) : List Char := unescAux false l

/-- Capture the raw body of a quoted literal up to its closing quote.  The
flag records that the previous character was a backslash, so an escaped quote
does not terminate the literal.  Returns the raw body (escapes still present)
and the remainder after the closing quote; `none` when the literal is cut off
before its closing quote. -/
def takeLit : Bool → List Char → Option (List Char × List Char)
  | _, [] => none
  | b, c :: rest =>
    if b then (takeLit false rest).map (fun p => (c :: p.1, p.2))
    else if c = '"' then some ([], rest)
    else if c = '\\' then (takeLit true rest).map (fun p => ('\\' :: p.1, p.2))
    else (takeLit false rest).map (fun p => (c :: p.1, p.2))

/-- Split leading whitespace, returning its length and the remainder. -/
def splitWs : List Char → Nat × List Char
  | [] => (0, [])
  | c :: rest =>
    if isWs c then
      let p := splitWs rest
      (p.1 + 1, p.2)
    else (0, c :: rest)

/-- Split a leading language-argument token, returning its length and the
remainder. -/
def splitLang : List Char → Nat × List Char
  | [] => (0, [])
  | c :: rest =>
    if isLangChar c then
      let p := splitLang rest
      (p.1 + 1, p.2)
    else (0, c :: rest)

/-- Recognize one of the translation-call aliases `i18n`, `T`, `t` at the head
of the buffer, returning its length and the remainder. -/
def takeAlias : List Char → Option (Nat × List Char)
  | 'i' :: '1' :: '8' :: 'n' :: rest => some (4, rest)
  | 'T' :: rest => some (1, rest)
  | 't' :: rest => some (1, rest)
  | _ => none

/-- Modelled from the spec: body of a call-site match of the missing
`extractor.go`, applied to the characters after the opening action braces.
Expects optional whitespace, an alias, whitespace, a language argument,
whitespace, a double-quoted literal honouring escaped quotes, optional
whitespace and the closing action braces; yields the captured message text
(escapes resolved) and the byte offset of the opening quote relative to the
start of the match. -/
def tryMatchBody (rest : List Char) : Option (String × Nat) :=
  let w1 := splitWs rest
  match takeAlias w1.2 with
  | none => none
  | some al =>
    let w2 := splitWs al.2
    if w2.1 = 0 then none
    else
      let lg := splitLang w2.2
      if lg.1 = 0 then none
      else
        let w3 := splitWs lg.2
        if w3.1 = 0 then none
        else
          match w3.2 with
          | '"' :: r6 =>
            match takeLit false r6 with
            | none => none
            | some lit =>
              match (splitWs lit.2).2 with
              | '\x7d' :: '\x7d' :: _ =>
                some (String.mk (unescapeQuotes lit.1),
                  2 + w1.1 + al.1 + w2.1 + lg.1 + w3.1)
              | _ => none
          | _ => none

/-- Attempt to match a complete translation call-site at the head of the
buffer: two opening braces followed by the call body. -/
def tryMatch : List Char → Option (String × Nat)
  | c1 :: c2 :: rest =>
    if c1 = '\x7b' ∧ c2 = '\x7b' then tryMatchBody rest else none
  | _ => none

/-- Scan every position of the buffer for call-site matches, recording the
captured message text and the absolute offset of its opening quote. -/
def scanAux : List Char → Nat → List (String × Nat)
  | [], _ => []
  | c :: rest, off =>
    match tryMatch (c :: rest) with
    | some r => (r.1, off + r.2) :: scanAux rest (off + 1)
    | none => scanAux rest (off + 1)

/-- Modelled from the spec: the Call-Site Scanner of the missing
`extractor.go`.  Returns the captured message texts of a file paired with
their resolved position strings, in left-to-right order. -/
def scanContent (content : String) (relPath : String) : List (String × String) :=
  (scanAux content.data 0).map
    (fun o => (o.1, positionFor content.data (Int.ofNat o.2) relPath))

/-! ## Data model -/

/-- One distinct extracted message: the literal text (also the dedup key) and
every position it was seen at, in discovery order. -/
structure Message where
  ID : String
  Positions : List String
deriving DecidableEq, Repr

/-- Envelope of the JSON output file: the ordered message list. -/
structure OutputJSON where
  Messages : List Message
deriving DecidableEq, Repr

/-- Extractor configuration: scan root, optional JSON output path, target
package name, stub output path, set of template extensions. -/
structure Extractor where
  dir : String
  out : String
  pkg : String
  goFile : String
  exts : List String
deriving DecidableEq, Repr

/-- Modelled from the spec: `NewExtractor` of the missing `extractor.go`. -/
def NewExtractor (dir out pkg goFile : String) (exts : List String) : Extractor :=
  ⟨dir, out, pkg, goFile, exts⟩

/-- Modelled from the spec: `isTemplate` of the missing `extractor.go`.
A path matches when its lower-cased extension is a member of the configured
extension set; the configured set is kept as given. -/
def isTemplate (exts : List String) (path : String) : Bool :=
  exts.contains (lowerStr (filepathExt path))

/-! ## Aggregator -/

/-- Append one discovered position to the insertion-ordered message list:
a repeat text appends to its existing entry, a new text appends a fresh entry
at the end. -/
def addPosition : List Message → String → String → List Message
  | [], id, pos => [⟨id, [pos]⟩]
  | m :: rest, id, pos =>
    if m.ID = id then ⟨m.ID, m.Positions ++ [pos]⟩ :: rest
    else m :: addPosition rest id pos

/-- Modelled from the spec: `extractFromContent` of the missing
`extractor.go`.  Scans one file and folds every discovered call-site into the
accumulated message list. -/
def extractFromContent (msgs : List Message) (content : String)
    (relPath : String) : List Message :=
  (scanContent content relPath).foldl (fun acc o => addPosition acc o.1 o.2) msgs

/-- Aggregation of a flat occurrence list (text, position) into the
insertion-ordered message list. -/
def aggregateOccs (occs : List (String × String)) : List Message :=
  occs.foldl (fun acc o => addPosition acc o.1 o.2) []

/-- A directory tree presented to the walker: relative path and content of
every regular file, in the walker's deterministic (sorted) visit order. -/
abbrev FileTree := List (String × String)

/-- Flat list of every call-site occurrence over the matched files of a tree,
in discovery order (file order times in-file left-to-right order). -/
def occurrences (e : Extractor) (tree : FileTree) : List (String × String) :=
  (tree.filter fun f => isTemplate e.exts f.1).flatMap fun f => scanContent f.2 f.1

/-- Modelled from the spec: the tree walk plus aggregation of the missing
`extractor.go`, before the final ordering step. The resulting entries are in
first-seen order. -/
def aggregate (e : Extractor) (tree : FileTree) : List Message :=
  (tree.filter fun f => isTemplate e.exts f.1).foldl
    (fun acc f => extractFromContent acc f.2 f.1) []

/-! ## Final ordering -/

/-- Byte-wise (code-point-wise) lexicographic order on character lists. -/
def strLtB : List Char → List Char → Bool
  | [], [] => false
  | [], _ :: _ => true
  | _ :: _, [] => false
  | a :: as, b :: bs => if a < b then true else if b < a then false else strLtB as bs

/-- Insert a message into a list sorted by `strLtB` on the message texts. -/
def insertMsg (m : Message) : List Message → List Message
  | [] => [m]
  | x :: xs => if strLtB x.ID.data m.ID.data then x :: insertMsg m xs else m :: x :: xs

/-- Sort a message list lexicographically by message text. -/
def sortMessages : List Message → List Message
  | [] => []
  | x :: xs => insertMsg x (sortMessages xs)

/-- Insert a string into a list sorted by `strLtB`. -/
def insertStr (s : String) : List String → List String
  | [] => [s]
  | x :: xs => if strLtB x.data s.data then x :: insertStr s xs else s :: x :: xs

/-- Sort a string list lexicographically. -/
def sortStrings : List String → List String
  | [] => []
  | x :: xs => insertStr x (sortStrings xs)

/-- Modelled from the spec: `extract` of the missing `extractor.go`.  Walks
the tree, aggregates every occurrence and returns the message list sorted
lexicographically by message text, as pinned by the repository's
`TestExtract` and `TestExtractFullWorkflow` fixtures. -/
def extract (e : Extractor) (tree : FileTree) : List Message :=
  sortMessages (aggregate e tree)

/-! ## Output writers -/

/-- Modelled from the spec: `saveMessages` of the missing `extractor.go`.
An empty output path is a no-op success; otherwise the ordered message list is
serialized as the `messages` array of a JSON object and written to the path,
failing exactly when the path cannot be created or written (abstracted by the
`writable` flag of the environment). -/
def saveMessages (out : String) (writable : Bool) (msgs : List Message) :
    Except String (Option OutputJSON) :=
  if out = "" then Except.ok none
  else if writable then Except.ok (some ⟨msgs⟩)
  else Except.error ("open " ++ out ++ ": no such file or directory")

/-- One no-op formatting invocation line of the stub file for one message. -/
def sprintfLine (id : String) : String :=
  "\x09_ = p.Sprintf(" ++ strconvQuote id ++ ")"

/-- Recognize a formatting-invocation line of the stub file. -/
def strStartsWith : List Char → List Char → Bool
  | [], _ => true
  | _ :: _, [] => false
  | a :: as, b :: bs => if a = b then strStartsWith as bs else false

/-- Test that a stub line is one of the no-op formatting invocations. -/
def isSprintfLine (l : String) : Bool :=
  strStartsWith "\x09_ = p.Sprintf(".data l.data

/-- Header lines of the generated stub file: machine-generated marker,
package declaration with the sanitized package name, imports and the opening
of the no-op function. -/
def stubHeader (pkg : String) : List String :=
  ["// Code generated by i18n-extract. DO NOT EDIT.",
   "",
   "package " ++ sanitizePkgName pkg,
   "",
   "import (",
   "\x09\"golang.org/x/text/language\"",
   "\x09\"golang.org/x/text/message\"",
   ")",
   "",
   "func _i18n_extract() \x7b",
   "\x09p := message.NewPrinter(language.English)"]

/-- Closing lines of the generated stub file. -/
def stubFooter : List String := ["\x7d", ""]

/-- Modelled from the spec: the line structure of the stub source produced by
`buildSyntheticGo` of the missing `extractor.go`: header, one formatting
invocation per message in order, footer. -/
def stubLines (pkg : String) (msgs : List Message) : List String :=
  stubHeader pkg ++ msgs.map (fun m => sprintfLine m.ID) ++ stubFooter

/-- Modelled from the spec: `buildSyntheticGo` of the missing
`extractor.go`, the full stub file content. -/
def buildSyntheticGo (pkg : String) (msgs : List Message) : String :=
  String.intercalate "\x0a" (stubLines pkg msgs)

/-- Modelled from the spec: `saveGoFile` of the missing `extractor.go`.
Always produces the stub file, with no skip on an empty output path; fails
exactly when the path cannot be created or written (abstracted by the
`writable` flag of the environment). -/
def saveGoFile (goFile : String) (writable : Bool) (pkg : String)
    (msgs : List Message) : Except String String :=
  if writable then Except.ok (buildSyntheticGo pkg msgs)
  else Except.error ("open " ++ goFile ++ ": no such file or directory")

/-! ## Runtime translation layer (from `i18n.go`) -/

/-- Language tag of the runtime layer, identified by its code. -/
structure Tag where
  code : String
deriving DecidableEq, Repr

/-- Default language tag `language.English`. -/
def languageEnglish : Tag := ⟨"en"⟩

/-- State of the process-wide fallback cell: `none` until the first store. -/
def fallbackInit : Option Tag := none

/-- `Fallback` of `i18n.go`: the stored tag when one was stored, otherwise
`language.English`. -/
def Fallback (st : Option Tag) : Tag := st.getD languageEnglish

/-- `SetFallback` of `i18n.go`: stores the given tag. -/
def SetFallback (t : Tag) (_ : Option Tag) : Option Tag := some t

/-! ## Demonstration fixtures -/

/-- Demonstration extractor configuration. -/
def demoExtractor : Extractor := NewExtractor "." "" "demo" "stub.go" [".html"]

/-- Demonstration tree: one template whose first-seen message order is
`Welcome` before `Cancel`. -/
def demoTree : FileTree :=
  [("a.html",
    "\x7b\x7b i18n .Lang \"Welcome\" \x7d\x7d\x0a\x7b\x7b i18n .Lang \"Cancel\" \x7d\x7d")]

/-! ## Lemma layer: escapes and literals -/

lemma unescapeQuotes_escapeQuotes (s : List Char) (h : '\\' ∉ s) :
    unescapeQuotes (escapeQuotes s) = s := by
  unfold unescapeQuotes
  induction s with
  | nil => rfl
  | cons c cs ih =>
    simp only [List.mem_cons] at h
    push_neg at h
    by_cases hq : c = '"'
    · subst hq
      rw [escapeQuotes, if_pos rfl]
      show '"' :: unescAux false (escapeQuotes cs) = '"' :: cs
      rw [ih h.2]
    · have hcb : c ≠ '\\' := Ne.symm h.1
      rw [escapeQuotes, if_neg hq]
      simp only [unescAux, if_neg hcb, Bool.false_eq_true, if_false]
      rw [ih h.2]

lemma brace_not_mem_escapeQuotes (s : List Char) (h : '\x7b' ∉ s) :
    '\x7b' ∉ escapeQuotes s := by
  induction s with
  | nil => simp [escapeQuotes]
  | cons c cs ih =>
    simp only [List.mem_cons] at h
    push_neg at h
    by_cases hq : c = '"'
    · subst hq
      rw [escapeQuotes, if_pos rfl]
      intro hm
      rcases List.mem_cons.mp hm with h1 | hm2
      · exact absurd h1 (by decide)
      rcases List.mem_cons.mp hm2 with h2 | hm3
      · exact absurd h2 (by decide)
      · exact ih h.2 hm3
    · rw [escapeQuotes, if_neg hq]
      intro hm
      rcases List.mem_cons.mp hm with h1 | hm2
      · exact h.1 h1
      · exact ih h.2 hm2

lemma takeLit_none_of_no_quote (l : List Char) (h : '"' ∉ l) :
    ∀ b, takeLit b l = none := by
  induction l with
  | nil => intro b; rfl
  | cons c rest ih =>
    intro b
    simp only [List.mem_cons] at h
    push_neg at h
    cases b
    · by_cases hb : c = '\\' <;>
        simp [takeLit, Ne.symm h.1, hb, ih h.2]
    · simp [takeLit, ih h.2]

lemma takeLit_escapeQuotes (s : List Char) (r : List Char) (h : '\\' ∉ s) :
    takeLit false (escapeQuotes s ++ '"' :: r) = some (escapeQuotes s, r) := by
  induction s with
  | nil => rfl
  | cons c cs ih =>
    simp only [List.mem_cons] at h
    push_neg at h
    by_cases hq : c = '"'
    · subst hq
      rw [escapeQuotes, if_pos rfl]
      simp [takeLit, ih h.2]
    · rw [escapeQuotes, if_neg hq]
      simp [takeLit, hq, Ne.symm h.1, ih h.2]

/-! ## Lemma layer: scanner -/

lemma tryMatch_not_open (c1 c2 : Char) (rest : List Char)
    (h : ¬(c1 = '\x7b' ∧ c2 = '\x7b')) : tryMatch (c1 :: c2 :: rest) = none := by
  simp [tryMatch, h]

lemma scanAux_cons (c : Char) (rest : List Char) (off : Nat) :
    scanAux (c :: rest) off
      = match tryMatch (c :: rest) with
        | some r => (r.1, off + r.2) :: scanAux rest (off + 1)
        | none => scanAux rest (off + 1) := rfl

lemma scanAux_cons_some (c : Char) (rest : List Char) (off : Nat)
    (id : String) (q : Nat) (h : tryMatch (c :: rest) = some (id, q)) :
    scanAux (c :: rest) off = (id, off + q) :: scanAux rest (off + 1) := by
  rw [scanAux_cons, h]

lemma scanAux_cons_none (c : Char) (rest : List Char) (off : Nat)
    (h : tryMatch (c :: rest) = none) :
    scanAux (c :: rest) off = scanAux rest (off + 1) := by
  rw [scanAux_cons, h]

lemma scanAux_eq_nil (l : List Char) (h : '\x7b' ∉ l) : ∀ off, scanAux l off = [] := by
  induction l with
  | nil => intro off; rfl
  | cons c rest ih =>
    intro off
    simp only [List.mem_cons] at h
    push_neg at h
    have hm : tryMatch (c :: rest) = none := by
      cases rest with
      | nil => rfl
      | cons d r2 => exact tryMatch_not_open c d r2 (fun hc => h.1 hc.1.symm)
    rw [scanAux_cons_none c rest off hm, ih h.2]

def opRest : List Char := [' ', 'i', '1', '8', 'n', ' ', '.', 'L', 'a', 'n', 'g', ' ', '"']

def openCall : List Char :=
  ['\x7b', '\x7b', ' ', 'i', '1', '8', 'n', ' ', '.', 'L', 'a', 'n', 'g', ' ', '"']

def closeCall : List Char := ['"', ' ', '\x7d', '\x7d']

def finishOpen (tail : List Char) : Option (String × Nat) :=
  match takeLit false tail with
  | none => none
  | some lit =>
    match (splitWs lit.2).2 with
    | '\x7d' :: '\x7d' :: _ => some (String.mk (unescapeQuotes lit.1), 14)
    | _ => none

lemma tryMatch_openCall (tail : List Char) :
    tryMatch (openCall ++ tail) = finishOpen tail := rfl

def escContent (s : String) : String :=
  "\x7b\x7b i18n .Lang \"" ++ String.mk (escapeQuotes s.data) ++ "\" \x7d\x7d"

lemma escContent_data (s : String) :
    (escContent s).data = openCall ++ (escapeQuotes s.data ++ closeCall) := by
  unfold escContent
  rw [String.data_append, String.data_append]
  rw [show (String.mk (escapeQuotes s.data)).data = escapeQuotes s.data from rfl]
  rw [show ("\x7b\x7b i18n .Lang \"").data = openCall from by decide]
  rw [show ("\" \x7d\x7d").data = closeCall from by decide]
  rw [List.append_assoc]

lemma scanAux_escContent (s : String) (h1 : '\\' ∉ s.data) (h2 : '\x7b' ∉ s.data) :
    scanAux (escContent s).data 0 = [(s, 14)] := by
  rw [escContent_data]
  have hm : tryMatch (openCall ++ (escapeQuotes s.data ++ closeCall)) = some (s, 14) := by
    rw [tryMatch_openCall]
    have ht : takeLit false (escapeQuotes s.data ++ closeCall)
        = some (escapeQuotes s.data, [' ', '\x7d', '\x7d']) := by
      rw [show (closeCall : List Char) = '"' :: [' ', '\x7d', '\x7d'] from rfl]
      exact takeLit_escapeQuotes s.data _ h1
    have hw : (splitWs [' ', '\x7d', '\x7d']).2 = ['\x7d', '\x7d'] := rfl
    simp only [finishOpen, ht, hw]
    rw [unescapeQuotes_escapeQuotes s.data h1]
  have e1 : openCall ++ (escapeQuotes s.data ++ closeCall)
      = '\x7b' :: '\x7b' :: (opRest ++ (escapeQuotes s.data ++ closeCall)) := rfl
  rw [e1] at hm ⊢
  rw [scanAux_cons_some _ _ _ _ _ hm]
  have e2 : opRest ++ (escapeQuotes s.data ++ closeCall)
      = ' ' :: (['i', '1', '8', 'n', ' ', '.', 'L', 'a', 'n', 'g', ' ', '"']
          ++ (escapeQuotes s.data ++ closeCall)) := rfl
  have hm2 : tryMatch ('\x7b' :: (opRest ++ (escapeQuotes s.data ++ closeCall))) = none := by
    rw [e2]
    exact tryMatch_not_open _ _ _ (by intro hc; exact absurd hc.2 (by decide))
  rw [scanAux_cons_none _ _ _ hm2]
  have hnb : '\x7b' ∉ opRest ++ (escapeQuotes s.data ++ closeCall) := by
    intro hmem
    rcases List.mem_append.mp hmem with ha | hb
    · exact absurd ha (by decide)
    rcases List.mem_append.mp hb with hc | hd
    · exact brace_not_mem_escapeQuotes s.data h2 hc
    · exact absurd hd (by decide)
  rw [scanAux_eq_nil _ hnb]

/-! ## Lemma layer: aggregation -/

def posOf (msgs : List Message) (id : String) : List String :=
  (msgs.filter (fun m => m.ID = id)).flatMap Message.Positions

lemma posOf_cons (m : Message) (rest : List Message) (id : String) :
    posOf (m :: rest) id = (if m.ID = id then m.Positions else []) ++ posOf rest id := by
  by_cases h : m.ID = id <;> simp [posOf, List.filter_cons, h]

lemma posOf_eq_nil (msgs : List Message) (id : String)
    (h : id ∉ msgs.map Message.ID) : posOf msgs id = [] := by
  induction msgs with
  | nil => rfl
  | cons m rest ih =>
    simp only [List.map_cons, List.mem_cons] at h
    push_neg at h
    rw [posOf_cons, if_neg (fun hh => h.1 hh.symm), ih h.2]
    rfl

lemma addPosition_map_id (msgs : List Message) (id pos : String) :
    (addPosition msgs id pos).map Message.ID =
      if id ∈ msgs.map Message.ID then msgs.map Message.ID
      else msgs.map Message.ID ++ [id] := by
  induction msgs with
  | nil => simp [addPosition]
  | cons m rest ih =>
    by_cases h : m.ID = id
    · simp [addPosition, h]
    · by_cases h2 : id ∈ rest.map Message.ID <;>
        simp [addPosition, h, ih, h2, Ne.symm h]

lemma posOf_addPosition_ne (msgs : List Message) (id pos id' : String) (h : id' ≠ id) :
    posOf (addPosition msgs id pos) id' = posOf msgs id' := by
  induction msgs with
  | nil => simp [addPosition, posOf, Ne.symm h]
  | cons m rest ih =>
    by_cases hm : m.ID = id
    · have hm' : m.ID ≠ id' := fun hh => h (hh ▸ hm : id' = id)
      simp only [addPosition, if_pos hm]
      rw [posOf_cons, posOf_cons, if_neg hm', if_neg hm']
    · simp only [addPosition, if_neg hm]
      rw [posOf_cons, posOf_cons, ih]

lemma posOf_addPosition_eq (msgs : List Message) (id pos : String)
    (hnd : (msgs.map Message.ID).Nodup) :
    posOf (addPosition msgs id pos) id = posOf msgs id ++ [pos] := by
  induction msgs with
  | nil => simp [addPosition, posOf]
  | cons m rest ih =>
    simp only [List.map_cons, List.nodup_cons] at hnd
    by_cases hm : m.ID = id
    · have hrest : posOf rest id = [] := posOf_eq_nil _ _ (hm ▸ hnd.1)
      simp only [addPosition, if_pos hm]
      rw [posOf_cons, posOf_cons, if_pos hm, if_pos hm, hrest]
      simp
    · simp only [addPosition, if_neg hm]
      rw [posOf_cons, posOf_cons, if_neg hm, ih hnd.2]
      simp

lemma posOf_of_mem (msgs : List Message) (m : Message)
    (hnd : (msgs.map Message.ID).Nodup) (hm : m ∈ msgs) :
    posOf msgs m.ID = m.Positions := by
  induction msgs with
  | nil => cases hm
  | cons x rest ih =>
    simp only [List.map_cons, List.nodup_cons] at hnd
    rcases List.mem_cons.mp hm with h | h
    · subst h
      rw [posOf_cons, if_pos rfl, posOf_eq_nil _ _ hnd.1]
      simp
    · have hx : x.ID ≠ m.ID := by
        intro he
        exact hnd.1 (he ▸ List.mem_map_of_mem Message.ID h)
      rw [posOf_cons, if_neg hx, ih hnd.2 h]
      rfl

lemma aggregateOccs_append_single (occs : List (String × String)) (o : String × String) :
    aggregateOccs (occs ++ [o]) = addPosition (aggregateOccs occs) o.1 o.2 := by
  simp [aggregateOccs, List.foldl_append]

lemma aggregateOccs_nodup (occs : List (String × String)) :
    ((aggregateOccs occs).map Message.ID).Nodup := by
  induction occs using List.reverseRecOn with
  | nil => simp [aggregateOccs]
  | append_singleton occs o ih =>
    rw [aggregateOccs_append_single, addPosition_map_id]
    split
    · exact ih
    · next hni =>
      rw [← List.concat_eq_append]
      exact List.Nodup.concat hni ih

lemma aggregateOccs_mem (occs : List (String × String)) (id : String) :
    id ∈ (aggregateOccs occs).map Message.ID ↔ id ∈ occs.map Prod.fst := by
  induction occs using List.reverseRecOn with
  | nil => simp [aggregateOccs]
  | append_singleton occs o ih =>
    rw [aggregateOccs_append_single, addPosition_map_id]
    by_cases h : o.1 ∈ (aggregateOccs occs).map Message.ID
    · rw [if_pos h]
      simp only [List.map_append, List.mem_append, List.map_cons, List.map_nil,
        List.mem_singleton]
      constructor
      · intro hid; exact Or.inl (ih.mp hid)
      · rintro (hid | rfl)
        · exact ih.mpr hid
        · exact h
    · rw [if_neg h]
      simp only [List.map_append, List.mem_append, List.map_cons, List.map_nil,
        List.mem_singleton, ih]

lemma aggregateOccs_posOf (occs : List (String × String)) (id : String) :
    posOf (aggregateOccs occs) id = (occs.filter (fun o => o.1 = id)).map Prod.snd := by
  induction occs using List.reverseRecOn with
  | nil => simp [aggregateOccs, posOf]
  | append_singleton occs o ih =>
    rw [aggregateOccs_append_single]
    by_cases h : o.1 = id
    · subst h
      rw [posOf_addPosition_eq _ _ _ (aggregateOccs_nodup occs), ih]
      simp [List.filter_append]
    · rw [posOf_addPosition_ne _ _ _ _ (fun he => h he.symm), ih]
      simp [List.filter_append, h]

lemma foldl_files (files : FileTree) (acc : List Message) :
    files.foldl (fun a f => extractFromContent a f.2 f.1) acc
      = (files.flatMap fun f => scanContent f.2 f.1).foldl
          (fun a o => addPosition a o.1 o.2) acc := by
  induction files generalizing acc with
  | nil => simp
  | cons f rest ih =>
    simp only [List.flatMap_cons, List.foldl_append, List.foldl_cons]
    rw [ih]
    rfl

lemma aggregate_eq (e : Extractor) (tree : FileTree) :
    aggregate e tree = aggregateOccs (occurrences e tree) := by
  simp [aggregate, aggregateOccs, occurrences, foldl_files]

/-! ## Lemma layer: sorting -/

lemma insertMsg_map_id (m : Message) (l : List Message) :
    (insertMsg m l).map Message.ID = insertStr m.ID (l.map Message.ID) := by
  induction l with
  | nil => rfl
  | cons x xs ih =>
    by_cases h : strLtB x.ID.data m.ID.data <;> simp [insertMsg, insertStr, h, ih]

lemma sortMessages_map_id (l : List Message) :
    (sortMessages l).map Message.ID = sortStrings (l.map Message.ID) := by
  induction l with
  | nil => rfl
  | cons x xs ih => simp [sortMessages, sortStrings, insertMsg_map_id, ih]

lemma insertMsg_perm (m : Message) (l : List Message) :
    List.Perm (insertMsg m l) (m :: l) := by
  induction l with
  | nil => exact List.Perm.refl _
  | cons x xs ih =>
    by_cases h : strLtB x.ID.data m.ID.data
    · rw [insertMsg, if_pos h]
      exact (ih.cons x).trans (List.Perm.swap m x xs)
    · rw [insertMsg, if_neg h]

lemma sortMessages_perm (l : List Message) : List.Perm (sortMessages l) l := by
  induction l with
  | nil => exact List.Perm.refl _
  | cons x xs ih => exact (insertMsg_perm x (sortMessages xs)).trans (ih.cons x)

lemma sortMessages_mem (m : Message) (l : List Message) :
    m ∈ sortMessages l ↔ m ∈ l := (sortMessages_perm l).mem_iff

lemma extract_nodup (e : Extractor) (tree : FileTree) :
    ((extract e tree).map Message.ID).Nodup := by
  have hperm := (sortMessages_perm (aggregate e tree)).map Message.ID
  rw [extract]
  exact hperm.nodup_iff.mpr (by rw [aggregate_eq]; exact aggregateOccs_nodup _)

lemma extract_positions (e : Extractor) (tree : FileTree) (m : Message)
    (hm : m ∈ extract e tree) :
    m.Positions = ((occurrences e tree).filter (fun o => o.1 = m.ID)).map Prod.snd := by
  rw [extract] at hm
  rw [sortMessages_mem] at hm
  rw [← aggregateOccs_posOf (occurrences e tree) m.ID]
  rw [← aggregate_eq]
  exact (posOf_of_mem _ m (by rw [aggregate_eq]; exact aggregateOccs_nodup _) hm).symm

/-! ## Lemma layer: stub writer -/

lemma strStartsWith_self_append (l t : List Char) : strStartsWith l (l ++ t) = true := by
  induction l with
  | nil => rfl
  | cons a as ih => simp [strStartsWith, ih]

lemma isSprintfLine_sprintfLine (id : String) : isSprintfLine (sprintfLine id) = true := by
  unfold isSprintfLine sprintfLine
  rw [String.data_append, String.data_append, List.append_assoc]
  exact strStartsWith_self_append _ _

lemma isSprintfLine_package (x : String) : isSprintfLine ("package " ++ x) = false := by
  unfold isSprintfLine
  rw [String.data_append]
  rfl

lemma stubLines_filter (pkg : String) (msgs : List Message) :
    (stubLines pkg msgs).filter isSprintfLine = msgs.map (fun m => sprintfLine m.ID) := by
  unfold stubLines
  rw [List.filter_append, List.filter_append]
  have h1 : (stubHeader pkg).filter isSprintfLine = [] := by
    unfold stubHeader
    simp [List.filter_cons, isSprintfLine_package,
      show isSprintfLine "// Code generated by i18n-extract. DO NOT EDIT." = false from rfl,
      show isSprintfLine "" = false from rfl,
      show isSprintfLine "import (" = false from rfl,
      show isSprintfLine "\x09\"golang.org/x/text/language\"" = false from rfl,
      show isSprintfLine "\x09\"golang.org/x/text/message\"" = false from rfl,
      show isSprintfLine ")" = false from rfl,
      show isSprintfLine "func _i18n_extract() \x7b" = false from rfl,
      show isSprintfLine "\x09p := message.NewPrinter(language.English)" = false from rfl]
  have h2 : (stubFooter).filter isSprintfLine = [] := rfl
  have h3 : (msgs.map (fun m => sprintfLine m.ID)).filter isSprintfLine
      = msgs.map (fun m => sprintfLine m.ID) := by
    rw [List.filter_eq_self]
    intro a ha
    rcases List.mem_map.mp ha with ⟨m, _, rfl⟩
    exact isSprintfLine_sprintfLine m.ID
  rw [h1, h2, h3]
  simp

/-! ## Lemma layer: quote round trip -/

lemma unquoteAux_escape (l : List Char) :
    unquoteAux false (l.flatMap escapeChar ++ ['"']) = some l := by
  induction l with
  | nil => rfl
  | cons c cs ih =>
    by_cases h1 : c = '\\'
    · subst h1
      simp only [List.flatMap_cons, escapeChar, if_pos rfl, List.cons_append,
        List.append_assoc]
      simp [unquoteAux, decodeEsc, ih]
    · by_cases h2 : c = '"'
      · subst h2
        simp only [List.flatMap_cons, escapeChar, if_neg (by decide : ¬('"' : Char) = '\\'),
          if_pos rfl, List.cons_append, List.append_assoc]
        simp [unquoteAux, decodeEsc, ih]
      · by_cases h3 : c = '\x0a'
        · subst h3
          simp only [List.flatMap_cons, escapeChar,
            if_neg (by decide : ¬('\x0a' : Char) = '\\'),
            if_neg (by decide : ¬('\x0a' : Char) = '"'), if_pos rfl, List.cons_append,
            List.append_assoc]
          simp [unquoteAux, decodeEsc, ih]
        · by_cases h4 : c = '\x09'
          · subst h4
            simp only [List.flatMap_cons, escapeChar,
              if_neg (by decide : ¬('\x09' : Char) = '\\'),
              if_neg (by decide : ¬('\x09' : Char) = '"'),
              if_neg (by decide : ¬('\x09' : Char) = '\x0a'), if_pos rfl, List.cons_append,
              List.append_assoc]
            simp [unquoteAux, decodeEsc, ih]
          · simp only [List.flatMap_cons, escapeChar, if_neg h1, if_neg h2, if_neg h3,
              if_neg h4, List.singleton_append, List.append_assoc]
            simp [unquoteAux, h1, h2, ih]

lemma unquoteGo_strconvQuote (s : String) : unquoteGo (strconvQuote s) = some s := by
  unfold unquoteGo strconvQuote
  rw [show (String.mk ('"' :: s.data.flatMap escapeChar ++ ['"'])).data
      = '"' :: (s.data.flatMap escapeChar ++ ['"']) from rfl]
  rw [show (match ('"' :: (s.data.flatMap escapeChar ++ ['"']) : List Char) with
      | '"' :: rest => (unquoteAux false rest).map String.mk
      | _ => none)
      = (unquoteAux false (s.data.flatMap escapeChar ++ ['"'])).map String.mk from rfl]
  rw [unquoteAux_escape s.data]
  rfl

/-! ## Claim theorems -/

/-- C1 (counterexample): the final message list is not in first-seen order.
On a tree whose first-seen order is `Welcome` then `Cancel`, the aggregator
holds `[Welcome, Cancel]` but the final extracted list is `[Cancel, Welcome]`,
so the first output message differs from the first distinct message
encountered during the walk. -/
theorem extract_first_seen_counterexample :
    (aggregate demoExtractor demoTree).map Message.ID = ["Welcome", "Cancel"] ∧
    (extract demoExtractor demoTree).map Message.ID = ["Cancel", "Welcome"] ∧
    (["Cancel", "Welcome"] : List String) ≠ ["Welcome", "Cancel"] :=
  ⟨rfl, rfl, by decide⟩

/-- C1 (amended): the final message list is the aggregator's first-seen
entries sorted lexicographically by message text; the JSON writer and the stub
writer both emit exactly that sorted entry order. -/
theorem extract_sorted_order (e : Extractor) (tree : FileTree) :
    (extract e tree).map Message.ID = sortStrings ((aggregate e tree).map Message.ID) ∧
    (∀ out : String, out ≠ "" →
      saveMessages out true (extract e tree) = Except.ok (some ⟨extract e tree⟩)) ∧
    (stubLines e.pkg (extract e tree)).filter isSprintfLine
      = (extract e tree).map (fun m => sprintfLine m.ID) := by
  refine ⟨?_, ?_, stubLines_filter _ _⟩
  · unfold extract
    exact sortMessages_map_id _
  · intro out hout
    simp [saveMessages, hout]

/-- C1 (witness): the amended order contract evaluated on the demonstration
tree with a non-empty JSON output path. -/
theorem extract_sorted_order_witness :
    (extract demoExtractor demoTree).map Message.ID
      = sortStrings ((aggregate demoExtractor demoTree).map Message.ID) ∧
    saveMessages "messages.json" true (extract demoExtractor demoTree)
      = Except.ok (some ⟨extract demoExtractor demoTree⟩) ∧
    (stubLines demoExtractor.pkg (extract demoExtractor demoTree)).filter isSprintfLine
      = (extract demoExtractor demoTree).map (fun m => sprintfLine m.ID) :=
  ⟨(extract_sorted_order demoExtractor demoTree).1,
   (extract_sorted_order demoExtractor demoTree).2.1 "messages.json" (by decide),
   (extract_sorted_order demoExtractor demoTree).2.2⟩

/-- C2 (counterexample): resolving offset 0 yields the unknown-position
sentinel, not line 1 column 1. -/
theorem positionFor_zero_counterexample :
    positionFor "Hello".data 0 "test.html" = "test.html:?:?" ∧
    "test.html:?:?" ≠ "test.html:1:1" :=
  ⟨rfl, by decide⟩

/-- C2 (amended): the Position Resolver returns `path:line:col` with line one
plus the count of preceding newlines and column the offset minus the last
preceding newline index, for offsets strictly between 0 and the buffer
length; any offset outside that open range, including 0, yields the sentinel
`path:?:?`; offset 7 in the two-line buffer yields line 2 column 2. -/
theorem positionFor_contract :
    (∀ (content : List Char) (pos : Int) (path : String),
      pos ≤ 0 ∨ (content.length : Int) ≤ pos →
        positionFor content pos path = path ++ ":?:?") ∧
    (∀ (content : List Char) (pos : Int) (path : String),
      0 < pos → pos < (content.length : Int) →
        positionFor content pos path
          = path ++ ":" ++ toString (1 + countNewlines (content.take pos.toNat)) ++ ":" ++
              toString (pos - lastNewlineIndex (content.take pos.toNat))) ∧
    positionFor "Hello\x0aWorld".data 7 "test.html" = "test.html:2:2" ∧
    positionFor "Hello".data 0 "test.html" = "test.html:?:?" ∧
    positionFor "Hello".data (-1) "test.html" = "test.html:?:?" ∧
    positionFor "Hello world".data 5 "test.html" = "test.html:1:6" := by
  refine ⟨?_, ?_, rfl, rfl, rfl, rfl⟩
  · intro content pos path h
    rw [positionFor, if_pos h]
  · intro content pos path h1 h2
    rw [positionFor, if_neg (by push_neg; exact ⟨h1, h2⟩)]

/-- C2 (witness): the amended position contract evaluated at concrete
offsets, one in the sentinel range and one in the valid range. -/
theorem positionFor_contract_witness :
    positionFor "Hello".data 9 "t" = "t:?:?" ∧
    positionFor "Hello".data 2 "t"
      = "t" ++ ":" ++ toString (1 + countNewlines ("Hello".data.take (2 : Int).toNat)) ++ ":" ++
          toString ((2 : Int) - lastNewlineIndex ("Hello".data.take (2 : Int).toNat)) :=
  ⟨positionFor_contract.1 "Hello".data 9 "t" (by decide),
   positionFor_contract.2.1 "Hello".data 2 "t" (by decide) (by decide)⟩

/-- C3: aggregation deduplicates by message text.  The extracted list never
holds two entries with the same ID; each entry's position list is exactly the
discovery-ordered positions of the call-sites carrying its text; and a text
has an entry exactly when it occurs at some call-site. -/
theorem extract_dedup_contract (e : Extractor) (tree : FileTree) :
    ((extract e tree).map Message.ID).Nodup ∧
    (∀ m, m ∈ extract e tree →
      m.Positions = ((occurrences e tree).filter (fun o => o.1 = m.ID)).map Prod.snd) ∧
    (∀ id, id ∈ (extract e tree).map Message.ID ↔ id ∈ (occurrences e tree).map Prod.fst) := by
  refine ⟨extract_nodup e tree, ?_, ?_⟩
  · intro m hm
    exact extract_positions e tree m hm
  · intro id
    have hperm := (sortMessages_perm (aggregate e tree)).map Message.ID
    rw [extract, hperm.mem_iff, aggregate_eq]
    exact aggregateOccs_mem _ id

/-- C3 (witness): the deduplication contract evaluated on the demonstration
tree at the concrete entry for `Welcome`. -/
theorem extract_dedup_contract_witness :
    ((extract demoExtractor demoTree).map Message.ID).Nodup ∧
    (Message.mk "Welcome" ["a.html:1:15"]).Positions
      = ((occurrences demoExtractor demoTree).filter
          (fun o => o.1 = (Message.mk "Welcome" ["a.html:1:15"]).ID)).map Prod.snd ∧
    ("Welcome" ∈ (extract demoExtractor demoTree).map Message.ID ↔
      "Welcome" ∈ (occurrences demoExtractor demoTree).map Prod.fst) :=
  ⟨(extract_dedup_contract demoExtractor demoTree).1,
   (extract_dedup_contract demoExtractor demoTree).2.1
     (Message.mk "Welcome" ["a.html:1:15"]) (by decide),
   (extract_dedup_contract demoExtractor demoTree).2.2 "Welcome"⟩

/-- C4: escape handling round-trips.  A message text whose template literal
escapes its double quotes is captured by the scanner with the escapes resolved
to literal quotes, and re-quoting the captured text for the stub produces a Go
literal that denotes exactly the original text. -/
theorem escape_roundtrip_contract (s path : String)
    (h1 : '\\' ∉ s.data) (h2 : '\x7b' ∉ s.data) :
    (scanContent (escContent s) path).map Prod.fst = [s] ∧
    unquoteGo (strconvQuote s) = some s := by
  constructor
  · unfold scanContent
    rw [scanAux_escContent s h1 h2]
    rfl
  · exact unquoteGo_strconvQuote s

/-- C4 (witness): the escape round trip evaluated on the repository's own
quoted-message fixture. -/
theorem escape_roundtrip_contract_witness :
    (scanContent (escContent "Say \"Hello\"") "escape.html").map Prod.fst
      = ["Say \"Hello\""] ∧
    unquoteGo (strconvQuote "Say \"Hello\"") = some "Say \"Hello\"" :=
  escape_roundtrip_contract "Say \"Hello\"" "escape.html" (by decide) (by decide)

/-- C5: the stub writer always produces a file, even for an empty output
path, and its content carries the machine-generated marker, the package
declaration with the sanitized package name, and exactly one no-op formatting
invocation per message whose sole argument is the double-quoted,
escape-correct literal of the message text. -/
theorem saveGoFile_contract (pkg : String) (msgs : List Message) :
    (∀ path : String, saveGoFile path true pkg msgs
      = Except.ok (buildSyntheticGo pkg msgs)) ∧
    saveGoFile "" true pkg msgs = Except.ok (buildSyntheticGo pkg msgs) ∧
    "// Code generated by i18n-extract. DO NOT EDIT." ∈ stubLines pkg msgs ∧
    ("package " ++ sanitizePkgName pkg) ∈ stubLines pkg msgs ∧
    (stubLines pkg msgs).filter isSprintfLine = msgs.map (fun m => sprintfLine m.ID) ∧
    buildSyntheticGo pkg msgs = String.intercalate "\x0a" (stubLines pkg msgs) := by
  refine ⟨fun path => rfl, rfl, ?_, ?_, stubLines_filter pkg msgs, rfl⟩
  · unfold stubLines stubHeader
    simp
  · unfold stubLines stubHeader
    simp

/-- C6: the JSON writer is a no-op success on an empty output path; on a
non-empty path it writes the `messages` envelope in entry order when the path
is writable and fails with a write error exactly when it is not. -/
theorem saveMessages_contract :
    (∀ (w : Bool) (msgs : List Message), saveMessages "" w msgs = Except.ok none) ∧
    (∀ (out : String) (w : Bool) (msgs : List Message), out ≠ "" → w = true →
      saveMessages out w msgs = Except.ok (some ⟨msgs⟩)) ∧
    (∀ (out : String) (msgs : List Message), out ≠ "" →
      saveMessages out false msgs
        = Except.error ("open " ++ out ++ ": no such file or directory")) ∧
    (∀ (out : String) (w : Bool) (msgs : List Message) (err : String),
      saveMessages out w msgs = Except.error err → out ≠ "" ∧ w = false) := by
  refine ⟨?_, ?_, ?_, ?_⟩
  · intro w msgs
    simp [saveMessages]
  · intro out w msgs h hw
    subst hw
    simp [saveMessages, h]
  · intro out msgs h
    simp [saveMessages, h]
  · intro out w msgs err h
    by_cases ho : out = ""
    · subst ho
      simp [saveMessages] at h
    · cases w
      · exact ⟨ho, rfl⟩
      · simp [saveMessages, ho] at h

/-- C6 (witness): the JSON writer contract evaluated at an empty path, a
writable path and an unwritable path. -/
theorem saveMessages_contract_witness :
    saveMessages "" true [] = Except.ok none ∧
    saveMessages "m.json" true [] = Except.ok (some ⟨[]⟩) ∧
    saveMessages "m.json" false []
      = Except.error ("open " ++ "m.json" ++ ": no such file or directory") ∧
    ("m.json" ≠ "" ∧ false = false) :=
  ⟨saveMessages_contract.1 true [],
   saveMessages_contract.2.1 "m.json" true [] (by decide) rfl,
   saveMessages_contract.2.2.1 "m.json" [] (by decide),
   saveMessages_contract.2.2.2 "m.json" false []
     ("open " ++ "m.json" ++ ": no such file or directory")
     (saveMessages_contract.2.2.1 "m.json" [] (by decide))⟩

/-- C7: package-name sanitization keeps only letters, digits and underscores,
drops one leading digit, and falls back to `main` on an empty result:
`123!@#` becomes `23`, `123package` becomes `23package`, the empty string
becomes `main`, and every character of any sanitized result is a letter,
digit or underscore. -/
theorem sanitizePkgName_contract :
    sanitizePkgName "123!@#" = "23" ∧
    sanitizePkgName "123package" = "23package" ∧
    sanitizePkgName "" = "main" ∧
    (∀ s : String, ∀ c ∈ (sanitizePkgName s).data, isPkgChar c = true) := by
  refine ⟨by decide, by decide, rfl, ?_⟩
  intro s c hc
  unfold sanitizePkgName at hc
  rcases hfil : s.data.filter isPkgChar with _ | ⟨c0, rest⟩
  · rw [hfil] at hc
    have hc2 : c ∈ ['m', 'a', 'i', 'n'] := hc
    fin_cases hc2 <;> decide
  · rw [hfil] at hc
    have hc2 : c ∈ (if (if c0.isDigit then rest else c0 :: rest).isEmpty
        then ("main" : String)
        else String.mk (if c0.isDigit then rest else c0 :: rest)).data := hc
    by_cases hd : c0.isDigit
    · rw [if_pos hd] at hc2
      by_cases hre : rest.isEmpty
      · rw [if_pos hre] at hc2
        have hc3 : c ∈ ['m', 'a', 'i', 'n'] := hc2
        fin_cases hc3 <;> decide
      · rw [if_neg hre] at hc2
        have hc3 : c ∈ rest := hc2
        exact List.of_mem_filter (hfil ▸ List.mem_cons_of_mem c0 hc3)
    · rw [if_neg hd] at hc2
      by_cases hre : (c0 :: rest).isEmpty
      · simp at hre
      · rw [if_neg hre] at hc2
        have hc3 : c ∈ c0 :: rest := hc2
        exact List.of_mem_filter (hfil ▸ hc3)

/-- C7 (witness): the sanitization contract evaluated at a concrete input
and a concrete character of a sanitized result. -/
theorem sanitizePkgName_contract_witness :
    sanitizePkgName "123!@#" = "23" ∧ isPkgChar 'm' = true :=
  ⟨sanitizePkgName_contract.1, sanitizePkgName_contract.2.2.2 "" 'm' (by decide)⟩

/-- C8: extension filtering is case-insensitive membership of the lower-cased
file extension in the configured set; a path without an extension matches no
set of real extensions, and an empty set matches nothing. -/
theorem isTemplate_contract :
    isTemplate [".html"] "/path/to/template.HTML" = true ∧
    isTemplate [".html"] "/path/to/template.htm" = false ∧
    (∀ p : String, isTemplate [] p = false) ∧
    (∀ (exts : List String) (p : String), filepathExt p = "" → "" ∉ exts →
      isTemplate exts p = false) ∧
    (∀ (exts : List String) (p : String),
      isTemplate exts p = true ↔ lowerStr (filepathExt p) ∈ exts) := by
  refine ⟨by decide, by decide, fun p => rfl, ?_, ?_⟩
  · intro exts p hext hmem
    rw [isTemplate, hext, show lowerStr "" = "" from rfl]
    cases hcon : exts.contains ""
    · rfl
    · exact absurd (List.elem_iff.mp hcon) hmem
  · intro exts p
    exact List.elem_iff

/-- C8 (witness): the filtering contract evaluated at a path without an
extension and at the repository's upper-case fixture. -/
theorem isTemplate_contract_witness :
    isTemplate [".html"] "template" = false ∧
    (isTemplate [".html"] "/path/to/template.HTML" = true ↔
      lowerStr (filepathExt "/path/to/template.HTML") ∈ [".html"]) :=
  ⟨isTemplate_contract.2.2.2.1 [".html"] "template" (by decide) (by decide),
   isTemplate_contract.2.2.2.2 [".html"] "/path/to/template.HTML"⟩

/-- C9: a call-site whose quoted literal is cut off before its closing quote
is silently skipped; the scan of such a buffer records nothing and, being a
total function into a plain list, never produces an error. -/
theorem incomplete_literal_skipped (s path : String)
    (h1 : '"' ∉ s.data) (h2 : '\x7b' ∉ s.data) :
    scanContent ("\x7b\x7b i18n .Lang \"" ++ s) path = [] := by
  unfold scanContent
  have hd : ("\x7b\x7b i18n .Lang \"" ++ s).data = openCall ++ s.data := by
    rw [String.data_append, show ("\x7b\x7b i18n .Lang \"").data = openCall from by decide]
  rw [hd]
  have hm : tryMatch (openCall ++ s.data) = none := by
    rw [tryMatch_openCall]
    unfold finishOpen
    rw [takeLit_none_of_no_quote s.data h1 false]
  have e1 : openCall ++ s.data = '\x7b' :: '\x7b' :: (opRest ++ s.data) := rfl
  rw [e1] at hm ⊢
  rw [scanAux_cons_none _ _ _ hm]
  have hm2 : tryMatch ('\x7b' :: (opRest ++ s.data)) = none := by
    rw [show opRest ++ s.data
      = ' ' :: (['i', '1', '8', 'n', ' ', '.', 'L', 'a', 'n', 'g', ' ', '"'] ++ s.data)
      from rfl]
    exact tryMatch_not_open _ _ _ (by intro hc; exact absurd hc.2 (by decide))
  rw [scanAux_cons_none _ _ _ hm2]
  have hnb : '\x7b' ∉ opRest ++ s.data := by
    intro hmem
    rcases List.mem_append.mp hmem with ha | hb
    · exact absurd ha (by decide)
    · exact h2 hb
  rw [scanAux_eq_nil _ hnb]
  rfl

/-- C9 (witness): the cut-off literal of the repository's incomplete-syntax
fixture is skipped. -/
theorem incomplete_literal_skipped_witness :
    scanContent ("\x7b\x7b i18n .Lang \"" ++ "Incomplete message") "incomplete.html" = [] :=
  incomplete_literal_skipped "Incomplete message" "incomplete.html" (by decide) (by decide)

/-- C10: before any store the fallback is `language.English`; after
`SetFallback` stores a tag, every read returns that tag. -/
theorem fallback_contract :
    Fallback fallbackInit = languageEnglish ∧
    (∀ (t : Tag) (st : Option Tag), Fallback (SetFallback t st) = t) :=
  ⟨rfl, fun _ _ => rfl⟩
